import Mathlib

/-!
Verification development for the graph-rewiring repository (models.py, utilities.py).

The Python code mutates `networkx` graphs.  We embed the graph as a pair of a
finite node set and a finite set of normalised undirected edges (stored as
ordered pairs `(min, max)`), and embed each operation of the source
(`add_edge`, `remove_edge`, `G.neighbors`, `G.degree`, `nx.average_clustering`,
the three rewiring models, the connectivity repair, the configuration-model
builder and the degree-sequence sampler).  Randomness (`random.choice`,
`random.sample`, `random.choices`) is replaced by explicit oracle parameters,
and the wall-clock alarm of the models is replaced by an explicit interrupt
schedule, so every theorem quantifies over all random outcomes and all
interrupt placements.
-/

/-- Normalised representation of the undirected edge between `u` and `v`:
the pair is stored with the smaller endpoint first. -/
def normEdge (u v : Nat) : Nat × Nat := if u ≤ v then (u, v) else (v, u)

/-- Embedding of a `networkx` undirected graph: a finite set of integer node
identifiers and a finite set of normalised edges. -/
structure NXGraph where
  nodes : Finset Nat
  edges : Finset (Nat × Nat)
deriving DecidableEq

/-- `G.add_edge(u, v)`: inserts both endpoints into the node set (networkx
creates missing endpoints) and inserts the undirected edge. -/
def addEdge (G : NXGraph) (u v : Nat) : NXGraph :=
  ⟨insert u (insert v G.nodes), insert (normEdge u v) G.edges⟩

/-- `G.remove_edge(u, v)`: removes the undirected edge; nodes unchanged. -/
def removeEdge (G : NXGraph) (u v : Nat) : NXGraph :=
  ⟨G.nodes, G.edges.erase (normEdge u v)⟩

/-- Edge membership test (`G.has_edge(u, v)` / `v in G[u]`). -/
def hasEdge (G : NXGraph) (u v : Nat) : Bool := normEdge u v ∈ G.edges

/-- `list(G.neighbors(u))` as a finite set: the nodes adjacent to `u`. -/
def neighbors (G : NXGraph) (u : Nat) : Finset Nat :=
  G.nodes.filter (fun w => hasEdge G u w)

/-- `G.degree(u)`: number of neighbors of `u` (the graphs built by this code
have no self-loops on the paths where `degree` is consulted). -/
def degree (G : NXGraph) (u : Nat) : Nat := (neighbors G u).card

/-- Local clustering coefficient of one node, as an exact rational: the
fraction of pairs of neighbors that are themselves adjacent; `0` for nodes of
degree `< 2` (semantics of `nx.clustering`). -/
def localClustering (G : NXGraph) (v : Nat) : ℚ :=
  let N := neighbors G v
  let k := N.card
  if k < 2 then 0
  else (2 * ((N ×ˢ N).filter (fun p => p.1 < p.2 ∧ hasEdge G p.1 p.2 = true)).card : ℚ)
      / (k * (k - 1))

/-- `nx.average_clustering(G)`: mean of the local clustering coefficients over
all nodes. -/
def avgClustering (G : NXGraph) : ℚ :=
  if G.nodes.card = 0 then 0
  else (G.nodes.sum (fun v => localClustering G v)) / G.nodes.card

/-! ### Basic facts about the graph operations -/

theorem normEdge_eq_iff (a b c d : Nat) :
    normEdge a b = normEdge c d ↔ (a = c ∧ b = d) ∨ (a = d ∧ b = c) := by
  unfold normEdge
  split <;> split <;> simp [Prod.ext_iff] <;> omega

theorem normEdge_comm (a b : Nat) : normEdge a b = normEdge b a := by
  rw [normEdge_eq_iff]; right; exact ⟨rfl, rfl⟩

theorem hasEdge_symm (G : NXGraph) (a b : Nat) : hasEdge G a b = hasEdge G b a := by
  unfold hasEdge; rw [normEdge_comm]

theorem mem_neighbors (G : NXGraph) (u w : Nat) :
    w ∈ neighbors G u ↔ w ∈ G.nodes ∧ hasEdge G u w = true := by
  unfold neighbors; simp

theorem neighbors_subset_nodes (G : NXGraph) (u : Nat) : neighbors G u ⊆ G.nodes :=
  Finset.filter_subset _ _

theorem nodes_removeEdge (G : NXGraph) (u v : Nat) : (removeEdge G u v).nodes = G.nodes := rfl

theorem hasEdge_removeEdge_imp (G : NXGraph) (u v a b : Nat)
    (h : hasEdge (removeEdge G u v) a b = true) : hasEdge G a b = true := by
  unfold hasEdge removeEdge at *
  simpa using Finset.mem_of_mem_erase (by simpa using h)

theorem neighbors_removeEdge_subset (G : NXGraph) (u v w : Nat) :
    neighbors (removeEdge G u v) w ⊆ neighbors G w := by
  intro x hx
  rw [mem_neighbors] at hx ⊢
  exact ⟨hx.1, hasEdge_removeEdge_imp G u v w x hx.2⟩

theorem edges_subset_addEdge (G : NXGraph) (u v : Nat) :
    G.edges ⊆ (addEdge G u v).edges := Finset.subset_insert _ _

theorem hasEdge_addEdge_imp (G : NXGraph) (u v a b : Nat)
    (h : hasEdge G a b = true) : hasEdge (addEdge G u v) a b = true := by
  unfold hasEdge addEdge at *
  simp only [decide_eq_true_eq] at *
  exact Finset.mem_insert_of_mem h

/-- The add–remove pair restores the edge set exactly when the edge was not
already present. -/
theorem addRemove_restores (G : NXGraph) (u v : Nat) (h : hasEdge G u v = false) :
    (removeEdge (addEdge G u v) u v).edges = G.edges := by
  unfold hasEdge at h
  simp only [decide_eq_false_iff_not] at h
  show (insert (normEdge u v) G.edges).erase (normEdge u v) = G.edges
  exact Finset.erase_insert h

/-- Deterministic listing (in ascending order) of a finite node set, standing
for the iteration order of `G.nodes()` / `list(G.neighbors(v))`; the
iteration order is immaterial to every property proved here. -/
def sortedList (s : Finset Nat) : List Nat :=
  (List.range (s.sup id + 1)).filter (fun x => decide (x ∈ s))

theorem mem_sortedList (s : Finset Nat) (x : Nat) : x ∈ sortedList s ↔ x ∈ s := by
  unfold sortedList
  simp only [List.mem_filter, List.mem_range, decide_eq_true_eq]
  refine ⟨fun h => h.2, fun hx => ⟨?_, hx⟩⟩
  have hle : id x ≤ s.sup id := Finset.le_sup hx
  exact Nat.lt_succ_of_le hle

/-! ### Per-node rewiring step, shared by the three models

Randomness inside one per-node step is supplied by a `StepChoice` oracle:
`removeIdx` selects which incident edge `random.choice(current_links)` removes
(taken modulo the number of links), and `sampleSel` stands for
`random.sample(pool, nodes_per_round)`; where a theorem needs the fact that
`random.sample` returns elements of its argument, that fact appears as an
explicit hypothesis on the oracle. -/

structure StepChoice where
  removeIdx : Nat
  sampleSel : List Nat → List Nat

/-- One tentative evaluation: `G.add_edge(node, possible)`, then
`nx.average_clustering(G)`, then `G.remove_edge(node, possible)`.  Returns the
computed coefficient and the graph as it stands after the removal. -/
def evalOne (G : NXGraph) (v c : Nat) : ℚ × NXGraph :=
  (avgClustering (addEdge G v c), removeEdge (addEdge G v c) v c)

/-- The candidate-scoring loop: runs `evalOne` for each selected candidate in
order, threading the (supposedly restored) graph through, and collects the
scores in `c_possible` order. -/
def evalCandidates (G : NXGraph) (v : Nat) (cands : List Nat) : List ℚ × NXGraph :=
  cands.foldl (fun acc c =>
    let r := evalOne acc.2 v c
    (acc.1 ++ [r.1], r.2)) ([], G)

/-- Index of the first maximal element (`c_possible.index(max(c_possible))`). -/
def idxOfMax (l : List ℚ) : Nat :=
  (List.range l.length).foldl (fun b j => if l.getD b 0 < l.getD j 0 then j else b) 0

/-- Candidate selection (`random.sample` if the pool is larger than
`nodes_per_round`, otherwise the whole pool). -/
def selectedOf (npr : Nat) (ch : StepChoice) (pool : List Nat) : List Nat :=
  if npr < pool.length then ch.sampleSel pool else pool

/-- Tail shared by every per-node step of the three models: select candidates
from the pool, score each by the add–evaluate–remove triple, and if any score
exists permanently add an edge to the first best candidate. -/
def rewireStep (npr : Nat) (ch : StepChoice) (G1 : NXGraph) (v : Nat) (pool : List Nat) :
    NXGraph :=
  let selected := selectedOf npr ch pool
  let sg := evalCandidates G1 v selected
  if sg.1 = [] then sg.2 else addEdge sg.2 v (selected.getD (idxOfMax sg.1) 0)

/-- Model 1 candidate pool (`models.py` line 51): all nodes of the
post-removal graph that are not in the pre-removal neighbor list `cl` and are
not `v` itself. -/
def pool1 (G1 : NXGraph) (cl : List Nat) (v : Nat) : List Nat :=
  (sortedList G1.nodes).filter (fun n => !cl.contains n && n != v)

/-- Model 1 per-node step (`models.py` lines 43-69): capture the neighbor
list, remove one random incident edge if any, build the pool, sample, score,
accept the best candidate. -/
def model1NodeStep (npr : Nat) (ch : StepChoice) (G : NXGraph) (v : Nat) : NXGraph :=
  let cl := sortedList (neighbors G v)
  let G1 := if cl.length ≠ 0 then removeEdge G v (cl.getD (ch.removeIdx % cl.length) 0) else G
  rewireStep npr ch G1 v (pool1 G1 cl v)

/-- Model 2 extended 2-hop neighbor set (`models.py` lines 134-138): the
pre-removal neighbor list, together with the post-removal neighbors of each of
its members, with `v` itself then *discarded from the exclusion set* — this
mirrors `extended_neighbors.discard(node)` in the source. -/
def extendedNbrs (G1 : NXGraph) (cl : List Nat) (v : Nat) : Finset Nat :=
  (cl.foldl (fun s nb => s ∪ neighbors G1 nb) cl.toFinset).erase v

/-- Model 2 candidate pool (`models.py` line 141): the round's node list
minus the extended neighbor set.  Note the source does not filter out `v`. -/
def pool2 (nl : List Nat) (ext : Finset Nat) : List Nat :=
  nl.filter (fun n => !(decide (n ∈ ext)))

/-- Model 2 per-node step (`models.py` lines 124-159). -/
def model2NodeStep (npr : Nat) (ch : StepChoice) (nl : List Nat) (G : NXGraph) (v : Nat) :
    NXGraph :=
  if v ∉ G.nodes then G
  else
    let cl := sortedList (neighbors G v)
    let G1 := if cl.length ≠ 0 then removeEdge G v (cl.getD (ch.removeIdx % cl.length) 0) else G
    rewireStep npr ch G1 v (pool2 nl (extendedNbrs G1 cl v))

/-- Model 3 candidate pool (`models.py` line 226): nodes of the round's node
list whose *current* (post-removal) degree equals the captured degree `d`,
excluding `v` itself. -/
def pool3 (G1 : NXGraph) (nl : List Nat) (v : Nat) (d : Nat) : List Nat :=
  nl.filter (fun n => degree G1 n == d && n != v)

/-- Model 3 selection/evaluation/acceptance tail, once a captured degree `d`
is available. -/
def model3Select (npr : Nat) (ch : StepChoice) (nl : List Nat) (G1 : NXGraph) (v d : Nat) :
    NXGraph :=
  rewireStep npr ch G1 v (pool3 G1 nl v d)

/-- Model 3 per-node step (`models.py` lines 214-244).  The state carries the
Python local variable `degree_of_removed_node` as an `Option Nat`: it is `none`
while the variable is still unbound, and reading it while `none` is the
`UnboundLocalError`, modelled as `Except.error ()`. -/
def model3NodeStep (npr : Nat) (ch : StepChoice) (nl : List Nat)
    (st : NXGraph × Option Nat) (v : Nat) : Except Unit (NXGraph × Option Nat) :=
  if v ∉ st.1.nodes then .ok st
  else
    let cl := sortedList (neighbors st.1 v)
    let gd : NXGraph × Option Nat :=
      if cl.length ≠ 0 then
        let w := cl.getD (ch.removeIdx % cl.length) 0
        (removeEdge st.1 v w, some (degree st.1 w))
      else st
    match gd.2 with
    | none => .error ()
    | some d => .ok (model3Select npr ch nl gd.1 v d, some d)

/-! ### Connectivity and the repair step of Models 2 and 3 -/

/-- One breadth step of component exploration: a set together with all
neighbors of its members. -/
def reachStep (G : NXGraph) (s : Finset Nat) : Finset Nat :=
  s ∪ s.biUnion (neighbors G)

/-- The connected component of `v`, computed by iterating `reachStep`
`G.nodes.card` times (enough steps to absorb every node reachable from `v`);
this is the executable rendering of membership in
`nx.connected_components(G)`. -/
def compOf (G : NXGraph) (v : Nat) : Finset Nat :=
  (reachStep G)^[G.nodes.card] {v}

/-- Reachability along edges of `G`. -/
def Reaches (G : NXGraph) (u v : Nat) : Prop :=
  Relation.ReflTransGen (fun a b => hasEdge G a b = true) u v

/-- The graph is connected: every two nodes are joined by a path
(`nx.is_connected`, as a property of the final state). -/
def ConnectedG (G : NXGraph) : Prop :=
  ∀ u ∈ G.nodes, ∀ v ∈ G.nodes, Reaches G u v

/-- Executable connectivity test standing for `nx.is_connected(G)`. -/
def connectedB (G : NXGraph) : Bool :=
  decide (∀ u ∈ G.nodes, ∀ w ∈ G.nodes, u ∈ compOf G w)

/-- `max(nx.connected_components(G), key=len)`: the component of the node
whose component has maximal size. -/
def largestCC (G : NXGraph) : Finset Nat :=
  match (sortedList G.nodes).argmax (fun v => (compOf G v).card) with
  | some v => compOf G v
  | none => ∅

/-- Connectivity repair (`models.py` lines 117-122 and 207-212): for every
node outside the largest connected component, add one edge from that node to
the member of the largest component chosen by the oracle `f`. -/
def repairConnect (G : NXGraph) (f : Nat → Nat) : NXGraph :=
  (sortedList G.nodes).foldl
    (fun H x => if x ∈ largestCC G then H else addEdge H x (f x)) G

theorem reaches_refl (G : NXGraph) (u : Nat) : Reaches G u u :=
  Relation.ReflTransGen.refl

theorem reaches_symm (G : NXGraph) {u v : Nat} (h : Reaches G u v) : Reaches G v u := by
  refine Relation.ReflTransGen.symmetric ?_ h
  intro a b hab
  rw [hasEdge_symm] at hab
  exact hab

theorem reaches_trans (G : NXGraph) {u v w : Nat} (h1 : Reaches G u v)
    (h2 : Reaches G v w) : Reaches G u w := h1.trans h2

theorem reaches_mono {G G' : NXGraph}
    (h : ∀ a b, hasEdge G a b = true → hasEdge G' a b = true) {u v : Nat}
    (huv : Reaches G u v) : Reaches G' u v :=
  Relation.ReflTransGen.mono (fun a b hab => h a b hab) huv

theorem reachStep_sound (G : NXGraph) (v : Nat) (s : Finset Nat)
    (hs : ∀ x ∈ s, Reaches G v x) : ∀ x ∈ reachStep G s, Reaches G v x := by
  intro x hx
  rcases Finset.mem_union.mp hx with h | h
  · exact hs x h
  · rcases Finset.mem_biUnion.mp h with ⟨u, hu, hxu⟩
    have hadj : hasEdge G u x = true := ((mem_neighbors G u x).mp hxu).2
    exact (hs u hu).tail hadj

theorem compOf_sound (G : NXGraph) (v : Nat) : ∀ x ∈ compOf G v, Reaches G v x := by
  unfold compOf
  generalize G.nodes.card = n
  induction n with
  | zero =>
    intro x hx
    simp only [Function.iterate_zero, id_eq, Finset.mem_singleton] at hx
    rw [hx]; exact reaches_refl G v
  | succ k ih =>
    intro x hx
    rw [Function.iterate_succ_apply'] at hx
    exact reachStep_sound G v _ ih x hx

theorem reachStep_subset_nodes (G : NXGraph) (s : Finset Nat) (hs : s ⊆ G.nodes) :
    reachStep G s ⊆ G.nodes := by
  unfold reachStep
  intro x hx
  rcases Finset.mem_union.mp hx with h | h
  · exact hs h
  · rcases Finset.mem_biUnion.mp h with ⟨u, _, hxu⟩
    exact neighbors_subset_nodes G u hxu

theorem compOf_subset_nodes (G : NXGraph) (v : Nat) (hv : v ∈ G.nodes) :
    compOf G v ⊆ G.nodes := by
  unfold compOf
  generalize G.nodes.card = n
  induction n with
  | zero => simpa using Finset.singleton_subset_iff.mpr hv
  | succ k ih =>
    rw [Function.iterate_succ_apply']
    exact reachStep_subset_nodes G _ ih

theorem self_mem_compOf (G : NXGraph) (v : Nat) : v ∈ compOf G v := by
  unfold compOf
  generalize G.nodes.card = n
  induction n with
  | zero => simp
  | succ k ih =>
    rw [Function.iterate_succ_apply']
    exact Finset.mem_union.mpr (Or.inl ih)

theorem largestCC_spec (G : NXGraph) (hne : G.nodes.Nonempty) :
    ∃ v ∈ G.nodes, largestCC G = compOf G v := by
  unfold largestCC
  rcases hne with ⟨a, ha⟩
  have hmem : a ∈ sortedList G.nodes := (mem_sortedList _ _).mpr ha
  have hnil : sortedList G.nodes ≠ [] := List.ne_nil_of_mem hmem
  rcases ho : (sortedList G.nodes).argmax (fun v => (compOf G v).card) with _ | v
  · exact absurd (List.argmax_eq_none.mp ho) hnil
  · exact ⟨v, (mem_sortedList _ _).mp (List.argmax_mem ho), rfl⟩

theorem largestCC_subset_nodes (G : NXGraph) : largestCC G ⊆ G.nodes := by
  by_cases hne : G.nodes.Nonempty
  · rcases largestCC_spec G hne with ⟨v, hv, heq⟩
    rw [heq]; exact compOf_subset_nodes G v hv
  · unfold largestCC
    rcases ho : (sortedList G.nodes).argmax (fun v => (compOf G v).card) with _ | v
    · simp
    · have hv := (mem_sortedList _ _).mp (List.argmax_mem ho)
      exact absurd ⟨v, hv⟩ hne

/-- Any two members of the largest component are joined in `G`. -/
theorem largestCC_connected (G : NXGraph) {u w : Nat}
    (hu : u ∈ largestCC G) (hw : w ∈ largestCC G) : Reaches G u w := by
  have hne : G.nodes.Nonempty := ⟨u, largestCC_subset_nodes G hu⟩
  rcases largestCC_spec G hne with ⟨v, _, heq⟩
  rw [heq] at hu hw
  exact reaches_trans G (reaches_symm G (compOf_sound G v u hu)) (compOf_sound G v w hw)

theorem foldl_repair_hasEdge_mono (G : NXGraph) (f : Nat → Nat) (l : List Nat)
    (H : NXGraph) {a b : Nat} (h : hasEdge H a b = true) :
    hasEdge (l.foldl (fun H x => if x ∈ largestCC G then H else addEdge H x (f x)) H) a b
      = true := by
  induction l generalizing H with
  | nil => exact h
  | cons y ys ih =>
    simp only [List.foldl_cons]
    by_cases hy : y ∈ largestCC G
    · rw [if_pos hy]; exact ih H h
    · rw [if_neg hy]; exact ih _ (hasEdge_addEdge_imp H y (f y) a b h)

theorem foldl_repair_adds (G : NXGraph) (f : Nat → Nat) (l : List Nat)
    (H : NXGraph) {x : Nat} (hx : x ∈ l) (hcc : x ∉ largestCC G) :
    hasEdge (l.foldl (fun H y => if y ∈ largestCC G then H else addEdge H y (f y)) H)
      x (f x) = true := by
  induction l generalizing H with
  | nil => cases hx
  | cons y ys ih =>
    simp only [List.foldl_cons]
    rcases List.mem_cons.mp hx with rfl | hmem
    · rw [if_neg hcc]
      apply foldl_repair_hasEdge_mono
      unfold hasEdge addEdge
      simp
    · by_cases hy : y ∈ largestCC G
      · rw [if_pos hy]; exact ih H hmem
      · rw [if_neg hy]; exact ih _ hmem

theorem foldl_repair_nodes (G : NXGraph) (f : Nat → Nat) (l : List Nat) (H : NXGraph)
    (hl : ∀ x ∈ l, x ∉ largestCC G → x ∈ H.nodes ∧ f x ∈ H.nodes) :
    (l.foldl (fun H y => if y ∈ largestCC G then H else addEdge H y (f y)) H).nodes
      = H.nodes := by
  induction l generalizing H with
  | nil => rfl
  | cons y ys ih =>
    simp only [List.foldl_cons]
    by_cases hy : y ∈ largestCC G
    · rw [if_pos hy]
      exact ih H (fun x hx hcc => hl x (List.mem_cons_of_mem y hx) hcc)
    · rw [if_neg hy]
      have hyn := hl y (List.mem_cons_self y ys) hy
      have hnodes : (addEdge H y (f y)).nodes = H.nodes := by
        unfold addEdge
        simp only
        rw [Finset.insert_eq_self.mpr hyn.2, Finset.insert_eq_self.mpr hyn.1]
      rw [ih _ (fun x hx hcc => by rw [hnodes]; exact hl x (List.mem_cons_of_mem y hx) hcc),
        hnodes]

theorem repairConnect_nodes (G : NXGraph) (f : Nat → Nat)
    (hf : ∀ x ∈ G.nodes, x ∉ largestCC G → f x ∈ largestCC G) :
    (repairConnect G f).nodes = G.nodes := by
  unfold repairConnect
  apply foldl_repair_nodes
  intro x hx hcc
  have hxn : x ∈ G.nodes := (mem_sortedList _ _).mp hx
  exact ⟨hxn, largestCC_subset_nodes G (hf x hxn hcc)⟩

theorem repairConnect_hasEdge_mono (G : NXGraph) (f : Nat → Nat) {a b : Nat}
    (h : hasEdge G a b = true) : hasEdge (repairConnect G f) a b = true :=
  foldl_repair_hasEdge_mono G f _ G h

theorem repairConnect_covers (G : NXGraph) (f : Nat → Nat) {x : Nat}
    (hx : x ∈ G.nodes) (hcc : x ∉ largestCC G) :
    hasEdge (repairConnect G f) x (f x) = true :=
  foldl_repair_adds G f _ G ((mem_sortedList _ _).mpr hx) hcc

/-- Every node of the repaired graph reaches the component representative:
core of the connectivity-repair correctness argument. -/
theorem repairConnect_connected (G : NXGraph) (f : Nat → Nat)
    (hf : ∀ x ∈ G.nodes, x ∉ largestCC G → f x ∈ largestCC G) :
    ConnectedG (repairConnect G f) := by
  intro u hu w hw
  rw [repairConnect_nodes G f hf] at hu hw
  have hne : G.nodes.Nonempty := ⟨u, hu⟩
  rcases largestCC_spec G hne with ⟨v0, hv0, hcc⟩
  have hv0cc : v0 ∈ largestCC G := by rw [hcc]; exact self_mem_compOf G v0
  have key : ∀ x ∈ G.nodes, Reaches (repairConnect G f) x v0 := by
    intro x hx
    by_cases hxcc : x ∈ largestCC G
    · exact reaches_mono (fun a b hab => repairConnect_hasEdge_mono G f hab)
        (largestCC_connected G hxcc hv0cc)
    · have hstep : Reaches (repairConnect G f) x (f x) :=
        Relation.ReflTransGen.single (repairConnect_covers G f hx hxcc)
      have hfx : Reaches (repairConnect G f) (f x) v0 :=
        reaches_mono (fun a b hab => repairConnect_hasEdge_mono G f hab)
          (largestCC_connected G (hf x hx hxcc) hv0cc)
      exact reaches_trans _ hstep hfx
  exact reaches_trans _ (key u hu) (reaches_symm _ (key w hw))

/-! ### Round bodies and the shared convergence loop

The loop skeleton shared by the three models (`models.py` lines 40-72,
113-162, 203-247): while the current coefficient is outside
`[cluster - allowed_error, cluster + allowed_error]`, increment the round
counter, run the round body, recompute the average clustering coefficient and
append it to `c_steps`.  The `SIGALRM` timeout, which in Python can interrupt
execution at any point of the round body, is modelled by an interrupt
schedule: `some .duringBody` makes round `i` abort after the counter increment
and before the coefficient append (any Python interrupt point strictly between
`i += 1` and `c_steps.append` yields these counter/trajectory values), and
`some .afterAppend` aborts after the append. -/

inductive IPoint where
  | duringBody
  | afterAppend
deriving DecidableEq

inductive RunOutcome (σ : Type) where
  /-- normal return after the while condition became false -/
  | done (s : σ) (i : Nat) (steps : List ℚ)
  /-- return from the `except TimeoutException` handler -/
  | timedOut (s : σ) (i : Nat) (steps : List ℚ)
  /-- an uncaught exception (`UnboundLocalError`) propagated: no return value -/
  | crashed
deriving DecidableEq

/-- The shared convergence loop.  `fuel` only bounds the recursion; exhausting
it yields `none` (no statement about such runs). -/
def modelLoop {σ : Type} (body : Nat → σ → Except Unit σ) (avg : σ → ℚ)
    (interrupt : Nat → Option IPoint) (lo hi : ℚ) :
    Nat → Nat → σ → ℚ → List ℚ → Option (RunOutcome σ)
  | 0, _, _, _, _ => none
  | fuel + 1, i, s, c, steps =>
    if c < lo ∨ hi < c then
      match interrupt (i + 1) with
      | some .duringBody => some (.timedOut s (i + 1) steps)
      | _ =>
        match body (i + 1) s with
        | .error _ => some .crashed
        | .ok s' =>
          match interrupt (i + 1) with
          | some .afterAppend => some (.timedOut s' (i + 1) (steps ++ [avg s']))
          | _ => modelLoop body avg interrupt lo hi fuel (i + 1) s' (avg s') (steps ++ [avg s'])
    else some (.done s i steps)

/-- One round of Model 1 (`models.py` lines 43-69): process every node of the
graph in order; `ch k` supplies the random choices for the `k`-th node. -/
def model1Round (npr : Nat) (ch : Nat → StepChoice) (G : NXGraph) : NXGraph :=
  ((sortedList G.nodes).enum).foldl (fun H p => model1NodeStep npr (ch p.1) H p.2) G

/-- One round of Model 2 (`models.py` lines 115-159): snapshot the node list,
repair connectivity if disconnected, then process every node. -/
def model2Round (npr : Nat) (ch : Nat → StepChoice) (f : Nat → Nat) (G : NXGraph) :
    NXGraph :=
  let nl := sortedList G.nodes
  let G1 := if connectedB G then G else repairConnect G f
  (nl.enum).foldl (fun H p => model2NodeStep npr (ch p.1) nl H p.2) G1

/-- One round of Model 3 (`models.py` lines 205-244); the `Option Nat`
component of the state is the possibly-unbound local
`degree_of_removed_node`, which persists across nodes and across rounds. -/
def model3Round (npr : Nat) (ch : Nat → StepChoice) (f : Nat → Nat)
    (st : NXGraph × Option Nat) : Except Unit (NXGraph × Option Nat) :=
  let nl := sortedList st.1.nodes
  let G1 := if connectedB st.1 then st.1 else repairConnect st.1 f
  (nl.enum).foldlM (fun s p => model3NodeStep npr (ch p.1) nl s p.2) (G1, st.2)

/-- `model1` (`models.py` lines 14-83): run the convergence loop with the
Model 1 round body; `chs i k` is the choice oracle for node `k` of round `i`,
`interrupt` the timeout schedule, `fuel` the recursion bound. -/
def model1 (G : NXGraph) (c0 cluster err : ℚ) (npr : Nat)
    (chs : Nat → Nat → StepChoice) (interrupt : Nat → Option IPoint) (fuel : Nat) :
    Option (RunOutcome NXGraph) :=
  modelLoop (fun i H => .ok (model1Round npr (chs i) H)) avgClustering interrupt
    (cluster - err) (cluster + err) fuel 0 G c0 [c0]

/-- `model2` (`models.py` lines 87-173); `rf i` chooses, for round `i`, the
largest-component member each outside node is wired to during repair. -/
def model2 (G : NXGraph) (c0 cluster err : ℚ) (npr : Nat)
    (chs : Nat → Nat → StepChoice) (rf : Nat → Nat → Nat)
    (interrupt : Nat → Option IPoint) (fuel : Nat) : Option (RunOutcome NXGraph) :=
  modelLoop (fun i H => .ok (model2Round npr (chs i) (rf i) H)) avgClustering interrupt
    (cluster - err) (cluster + err) fuel 0 G c0 [c0]

/-- `model3` (`models.py` lines 177-258); the state starts with the local
`degree_of_removed_node` unbound (`none`). -/
def model3 (G : NXGraph) (c0 cluster err : ℚ) (npr : Nat)
    (chs : Nat → Nat → StepChoice) (rf : Nat → Nat → Nat)
    (interrupt : Nat → Option IPoint) (fuel : Nat) :
    Option (RunOutcome (NXGraph × Option Nat)) :=
  modelLoop (fun i st => model3Round npr (chs i) (rf i) st)
    (fun st => avgClustering st.1) interrupt
    (cluster - err) (cluster + err) fuel 0 (G, none) c0 [c0]

/-! ### Configuration-model builder (`utilities.py`, `configuration_A`)

The stub multiset is `[i for i, degree in enumerate(S) for _ in range(degree)]`.
Each round, `random.sample(stubs, 2)` draws two stubs; the draw is supplied by
an oracle stream of position pairs, taken modulo the current stub count so
that every oracle value denotes an actual stub.  If the two stubs carry
different nodes, an edge is added and both stubs are removed
(`list.remove` removes the first occurrence); otherwise the draw is
discarded and the stub list is left unchanged. -/

def initStubs (S : List Nat) : List Nat :=
  (List.range S.length).flatMap (fun i => List.replicate (S.getD i 0) i)

def configALoop (draws : Nat → Nat × Nat) :
    Nat → Nat → NXGraph → List Nat → Option (NXGraph × List Nat)
  | 0, _, g, stubs => if stubs.length ≤ 1 then some (g, stubs) else none
  | fuel + 1, t, g, stubs =>
    if h : stubs.length ≤ 1 then some (g, stubs)
    else
      let p := draws t
      let v := stubs.get ⟨p.1 % stubs.length, Nat.mod_lt _ (by omega)⟩
      let w := stubs.get ⟨p.2 % stubs.length, Nat.mod_lt _ (by omega)⟩
      if v ≠ w then
        configALoop draws fuel (t + 1) (addEdge g v w) ((stubs.erase v).erase w)
      else configALoop draws fuel (t + 1) g stubs

/-- `configuration_A(S)`: empty graph on `len(S)` nodes, then the
stub-matching loop; `none` when `fuel` steps did not reach the exit
condition (fewer than two stubs). -/
def configuration_A (S : List Nat) (draws : Nat → Nat × Nat) (fuel : Nat) :
    Option NXGraph :=
  Option.map Prod.fst
    (configALoop draws fuel 0 ⟨Finset.range S.length, ∅⟩ (initStubs S))

/-! ### Degree-sequence sampler (`utilities.py`, `configuration_B`)

`nx.is_valid_degree_sequence_erdos_gallai` is a library function: it decides
graphicality of the multiset of degrees (sorting a copy internally), i.e. the
classical Erdős–Gallai criterion: even degree sum, and for the descending
rearrangement `d` every prefix inequality
`sum(d[:k]) <= k*(k-1) + sum(min(d_i, k) for i in d[k:])`. -/

def egTest (S : List Nat) : Bool :=
  let d := List.insertionSort (· ≥ ·) S
  decide (S.sum % 2 = 0) &&
    (List.range d.length).all (fun j =>
      let k := j + 1
      decide ((d.take k).sum ≤ k * (k - 1) + ((d.drop k).map (fun x => min x k)).sum))

/-- The rejection loop of `configuration_B` (`utilities.py` lines 63-65):
start from the invalid sequence `[1]` and redraw until the test passes;
`draws t` is the `t`-th outcome of `random.choices(range(len(P)), P, k=n)`.
Returns the accepted sequence. -/
def samplerLoop (draws : Nat → List Nat) : Nat → Nat → List Nat → Option (List Nat)
  | 0, _, S => if egTest S then some S else none
  | fuel + 1, t, S => if egTest S then some S else samplerLoop draws fuel (t + 1) (draws t)

/-- The degree sequence with which `configuration_B` exits its rejection loop. -/
def configurationBAccepted (draws : Nat → List Nat) (fuel : Nat) : Option (List Nat) :=
  samplerLoop draws fuel 0 [1]

/-! ### Shape of the convergence loop: trajectory length and head -/

theorem modelLoop_shape {σ : Type} (body : Nat → σ → Except Unit σ) (avg : σ → ℚ)
    (intr : Nat → Option IPoint) (lo hi h0 : ℚ) (fuel : Nat) :
    ∀ (i : Nat) (s : σ) (c : ℚ) (steps : List ℚ),
      steps.length = i + 1 → steps.head? = some h0 →
      (∀ g n st, modelLoop body avg intr lo hi fuel i s c steps = some (.done g n st) →
        st.length = n + 1 ∧ st.head? = some h0) ∧
      (∀ g n st, modelLoop body avg intr lo hi fuel i s c steps = some (.timedOut g n st) →
        (st.length = n ∨ st.length = n + 1) ∧ st.head? = some h0) := by
  induction fuel with
  | zero =>
    intro i s c steps _ _
    constructor <;> intro g n st heq <;> simp [modelLoop] at heq
  | succ f ih =>
    intro i s c steps hlen hhead
    have hne : steps ≠ [] := List.ne_nil_of_length_pos (by omega)
    rcases List.exists_cons_of_ne_nil hne with ⟨a, t, rfl⟩
    have hlen' : ∀ q : ℚ, ((a :: t) ++ [q]).length = (i + 1) + 1 := by
      intro q; simp at hlen ⊢; omega
    have hhead' : ∀ q : ℚ, ((a :: t) ++ [q]).head? = some h0 := by
      intro q; simpa using hhead
    constructor <;> intro g n st heq <;> simp only [modelLoop] at heq
    · by_cases hc : c < lo ∨ hi < c
      · rw [if_pos hc] at heq
        rcases hI : intr (i + 1) with _ | ip
        · rw [hI] at heq
          rcases hb : body (i + 1) s with e | s'
          · rw [hb] at heq; simp at heq
          · rw [hb] at heq
            simp only at heq
            exact (ih (i + 1) s' (avg s') ((a :: t) ++ [avg s']) (hlen' _) (hhead' _)).1
              g n st heq
        · cases ip
          · rw [hI] at heq; simp at heq
          · rw [hI] at heq
            rcases hb : body (i + 1) s with e | s'
            · rw [hb] at heq; simp at heq
            · rw [hb] at heq; simp at heq
      · rw [if_neg hc] at heq
        simp only [Option.some.injEq, RunOutcome.done.injEq] at heq
        obtain ⟨_, rfl, rfl⟩ := heq
        exact ⟨hlen, hhead⟩
    · by_cases hc : c < lo ∨ hi < c
      · rw [if_pos hc] at heq
        rcases hI : intr (i + 1) with _ | ip
        · rw [hI] at heq
          rcases hb : body (i + 1) s with e | s'
          · rw [hb] at heq; simp at heq
          · rw [hb] at heq
            simp only at heq
            exact (ih (i + 1) s' (avg s') ((a :: t) ++ [avg s']) (hlen' _) (hhead' _)).2
              g n st heq
        · cases ip
          · rw [hI] at heq
            simp only [Option.some.injEq, RunOutcome.timedOut.injEq] at heq
            obtain ⟨_, rfl, rfl⟩ := heq
            exact ⟨Or.inl hlen, hhead⟩
          · rw [hI] at heq
            rcases hb : body (i + 1) s with e | s'
            · rw [hb] at heq; simp at heq
            · rw [hb] at heq
              simp only [Option.some.injEq, RunOutcome.timedOut.injEq] at heq
              obtain ⟨_, rfl, rfl⟩ := heq
              exact ⟨Or.inr (hlen' _), hhead' _⟩
      · rw [if_neg hc] at heq; simp at heq

theorem modelLoop_inBounds {σ : Type} (body : Nat → σ → Except Unit σ) (avg : σ → ℚ)
    (intr : Nat → Option IPoint) (lo hi : ℚ) (fuel i : Nat) (s : σ) (c : ℚ)
    (steps : List ℚ) (h : ¬(c < lo ∨ hi < c)) :
    modelLoop body avg intr lo hi (fuel + 1) i s c steps = some (.done s i steps) := by
  simp only [modelLoop]; rw [if_neg h]

/-! ### Invariants of the stub-matching loop -/

theorem mem_neighbors_addEdge (G : NXGraph) (v w x y : Nat)
    (hv : v ∈ G.nodes) (hw : w ∈ G.nodes) :
    y ∈ neighbors (addEdge G v w) x ↔
      y ∈ neighbors G x ∨ (x = v ∧ y = w) ∨ (x = w ∧ y = v) := by
  constructor
  · intro h
    rw [mem_neighbors] at h
    obtain ⟨hyn, hedge⟩ := h
    unfold hasEdge addEdge at hedge
    simp only [decide_eq_true_eq, Finset.mem_insert] at hedge
    rcases hedge with heq | hold
    · rcases (normEdge_eq_iff x y v w).mp heq with ⟨rfl, rfl⟩ | ⟨rfl, rfl⟩
      · exact Or.inr (Or.inl ⟨rfl, rfl⟩)
      · exact Or.inr (Or.inr ⟨rfl, rfl⟩)
    · left
      rw [mem_neighbors]
      refine ⟨?_, by unfold hasEdge; simpa using hold⟩
      unfold addEdge at hyn
      simp only [Finset.mem_insert] at hyn
      rcases hyn with rfl | rfl | h
      · exact hv
      · exact hw
      · exact h
  · intro h
    rw [mem_neighbors]
    rcases h with h | ⟨rfl, rfl⟩ | ⟨rfl, rfl⟩
    · rw [mem_neighbors] at h
      exact ⟨Finset.mem_insert_of_mem (Finset.mem_insert_of_mem h.1),
        hasEdge_addEdge_imp G v w x y h.2⟩
    · refine ⟨Finset.mem_insert_of_mem (Finset.mem_insert_self _ _), ?_⟩
      unfold hasEdge addEdge
      simp
    · refine ⟨Finset.mem_insert_self _ _, ?_⟩
      unfold hasEdge addEdge
      rw [normEdge_comm]
      simp

theorem degree_addEdge_le (G : NXGraph) (v w x : Nat)
    (hv : v ∈ G.nodes) (hw : w ∈ G.nodes) :
    degree (addEdge G v w) x ≤ degree G x + 1 := by
  unfold degree
  by_cases hxv : x = v
  · subst hxv
    have hsub : neighbors (addEdge G x w) x ⊆ insert w (neighbors G x) := by
      intro y hy
      rcases (mem_neighbors_addEdge G x w x y hv hw).mp hy with h | ⟨_, rfl⟩ | ⟨hxw, rfl⟩
      · exact Finset.mem_insert_of_mem h
      · exact Finset.mem_insert_self _ _
      · rw [hxw]; exact Finset.mem_insert_self _ _
    calc (neighbors (addEdge G x w) x).card ≤ (insert w (neighbors G x)).card :=
          Finset.card_le_card hsub
      _ ≤ (neighbors G x).card + 1 := Finset.card_insert_le _ _
  · by_cases hxw : x = w
    · subst hxw
      have hsub : neighbors (addEdge G v x) x ⊆ insert v (neighbors G x) := by
        intro y hy
        rcases (mem_neighbors_addEdge G v x x y hv hw).mp hy with h | ⟨hxv2, rfl⟩ | ⟨_, rfl⟩
        · exact Finset.mem_insert_of_mem h
        · rw [hxv2]; exact Finset.mem_insert_self _ _
        · exact Finset.mem_insert_self _ _
      calc (neighbors (addEdge G v x) x).card ≤ (insert v (neighbors G x)).card :=
            Finset.card_le_card hsub
        _ ≤ (neighbors G x).card + 1 := Finset.card_insert_le _ _
    · have hsub : neighbors (addEdge G v w) x ⊆ neighbors G x := by
        intro y hy
        rcases (mem_neighbors_addEdge G v w x y hv hw).mp hy with h | ⟨h, _⟩ | ⟨h, _⟩
        · exact h
        · exact absurd h hxv
        · exact absurd h hxw
      exact le_trans (Finset.card_le_card hsub) (Nat.le_succ _)

theorem normEdge_fst_lt_snd (a b : Nat) (h : a ≠ b) :
    (normEdge a b).1 < (normEdge a b).2 := by
  unfold normEdge
  split <;> simp <;> omega

/-- The invariant carried by the stub-matching loop: the node set never
changes, all stored edges are normalised and loop-free, all stubs are valid
node indices, and realised degree plus remaining stub multiplicity never
exceeds the requested degree. -/
def cfgInv (n : Nat) (S : List Nat) (g : NXGraph) (stubs : List Nat) : Prop :=
  g.nodes = Finset.range n ∧
  (∀ e ∈ g.edges, e.1 < e.2) ∧
  (∀ x ∈ stubs, x < n) ∧
  (∀ x : Nat, degree g x + stubs.count x ≤ S.getD x 0)

theorem cfgInv_step (n : Nat) (S : List Nat) (g : NXGraph) (stubs : List Nat)
    (v w : Nat) (hv : v ∈ stubs) (hw : w ∈ stubs) (hvw : v ≠ w)
    (hinv : cfgInv n S g stubs) :
    cfgInv n S (addEdge g v w) ((stubs.erase v).erase w) := by
  obtain ⟨hnodes, hedges, hstub, hcount⟩ := hinv
  have hvn : v ∈ g.nodes := by rw [hnodes]; exact Finset.mem_range.mpr (hstub v hv)
  have hwn : w ∈ g.nodes := by rw [hnodes]; exact Finset.mem_range.mpr (hstub w hw)
  refine ⟨?_, ?_, ?_, ?_⟩
  · unfold addEdge
    simp only
    rw [Finset.insert_eq_self.mpr hwn, Finset.insert_eq_self.mpr hvn, hnodes]
  · intro e he
    unfold addEdge at he
    simp only [Finset.mem_insert] at he
    rcases he with rfl | he
    · exact normEdge_fst_lt_snd v w hvw
    · exact hedges e he
  · intro x hx
    exact hstub x (List.mem_of_mem_erase (List.mem_of_mem_erase hx))
  · intro x
    have hcv : 1 ≤ stubs.count v := List.count_pos_iff.mpr hv
    have hcw : 1 ≤ stubs.count w := List.count_pos_iff.mpr hw
    have hc2 : ((stubs.erase v).erase w).count x
        = stubs.count x - (if v = x then 1 else 0) - (if w = x then 1 else 0) := by
      rw [List.count_erase, List.count_erase]
      simp only [beq_iff_eq]
    have hdeg := degree_addEdge_le g v w x hvn hwn
    have hx := hcount x
    rw [hc2]
    rcases em (x = v) with rfl | hxv
    · rw [if_pos rfl, if_neg (Ne.symm hvw)]
      omega
    · rcases em (x = w) with rfl | hxw
      · rw [if_neg hvw, if_pos rfl]
        omega
      · have hother : degree (addEdge g v w) x ≤ degree g x := by
          unfold degree
          apply Finset.card_le_card
          intro y hy
          rcases (mem_neighbors_addEdge g v w x y hvn hwn).mp hy with h | ⟨h, _⟩ | ⟨h, _⟩
          · exact h
          · exact absurd h hxv
          · exact absurd h hxw
        rw [if_neg (Ne.symm hxv), if_neg (Ne.symm hxw)]
        omega

theorem configALoop_inv (n : Nat) (S : List Nat) (draws : Nat → Nat × Nat) (fuel : Nat) :
    ∀ (t : Nat) (g : NXGraph) (stubs : List Nat), cfgInv n S g stubs →
      ∀ g' stubs', configALoop draws fuel t g stubs = some (g', stubs') →
        cfgInv n S g' stubs' ∧ stubs'.length ≤ 1 := by
  induction fuel with
  | zero =>
    intro t g stubs hinv g' stubs' heq
    simp only [configALoop] at heq
    split at heq
    · obtain ⟨rfl, rfl⟩ := by simpa using heq
      exact ⟨hinv, by assumption⟩
    · cases heq
  | succ f ih =>
    intro t g stubs hinv g' stubs' heq
    simp only [configALoop] at heq
    split at heq
    · obtain ⟨rfl, rfl⟩ := by simpa using heq
      exact ⟨hinv, by assumption⟩
    · rename_i hlong
      split at heq
      · rename_i hne
        refine ih (t + 1) _ _ ?_ g' stubs' heq
        exact cfgInv_step n S g stubs _ _ (List.get_mem _ _ _) (List.get_mem _ _ _) hne hinv
      · exact ih (t + 1) g stubs hinv g' stubs' heq

theorem count_flatMap_replicate (f : Nat → Nat) (x : Nat) :
    ∀ l : List Nat, l.Nodup →
      ((l.flatMap (fun i => List.replicate (f i) i)).count x)
        = if x ∈ l then f x else 0 := by
  intro l
  induction l with
  | nil => intro _; simp
  | cons a as ih =>
    intro hnd
    rw [List.flatMap_cons, List.count_append, List.count_replicate,
      ih (List.Nodup.of_cons hnd)]
    rcases em (x = a) with rfl | hxa
    · have hnot : x ∉ as := (List.nodup_cons.mp hnd).1
      simp [hnot]
    · simp [hxa, Ne.symm hxa, List.mem_cons]

theorem initStubs_count (S : List Nat) (x : Nat) :
    (initStubs S).count x ≤ S.getD x 0 := by
  unfold initStubs
  rw [count_flatMap_replicate (fun i => S.getD i 0) x (List.range S.length)
    (List.nodup_range _)]
  split
  · exact le_refl _
  · exact Nat.zero_le _

theorem initStubs_mem (S : List Nat) (x : Nat) (hx : x ∈ initStubs S) : x < S.length := by
  unfold initStubs at hx
  rcases List.mem_flatMap.mp hx with ⟨i, hi, hrep⟩
  rw [List.eq_of_mem_replicate hrep]
  exact List.mem_range.mp hi

theorem degree_empty_edges (nodes : Finset Nat) (x : Nat) :
    degree ⟨nodes, ∅⟩ x = 0 := by
  unfold degree neighbors hasEdge
  simp

theorem cfgInv_init (S : List Nat) :
    cfgInv S.length S ⟨Finset.range S.length, ∅⟩ (initStubs S) := by
  refine ⟨rfl, by simp, initStubs_mem S, ?_⟩
  intro x
  rw [degree_empty_edges]
  simpa using initStubs_count S x

/-- After the configuration loop halts, fewer than two stubs remain. -/
theorem configALoop_halts_le_one (draws : Nat → Nat × Nat) (fuel : Nat) :
    ∀ (t : Nat) (g : NXGraph) (stubs : List Nat) (g' : NXGraph) (stubs' : List Nat),
      configALoop draws fuel t g stubs = some (g', stubs') → stubs'.length ≤ 1 := by
  induction fuel with
  | zero =>
    intro t g stubs g' stubs' heq
    simp only [configALoop] at heq
    split at heq
    · obtain ⟨rfl, rfl⟩ := by simpa using heq
      assumption
    · cases heq
  | succ f ih =>
    intro t g stubs g' stubs' heq
    simp only [configALoop] at heq
    split at heq
    · obtain ⟨rfl, rfl⟩ := by simpa using heq
      assumption
    · split at heq
      · exact ih (t + 1) _ _ g' stubs' heq
      · exact ih (t + 1) g stubs g' stubs' heq

/-- Conversely, with fewer than two stubs the loop exits at once, returning
the graph and stubs unchanged. -/
theorem configALoop_exits (draws : Nat → Nat × Nat) (fuel t : Nat) (g : NXGraph)
    (stubs : List Nat) (h : stubs.length ≤ 1) :
    configALoop draws fuel t g stubs = some (g, stubs) := by
  cases fuel <;> simp [configALoop, h]

/-- A draw whose two stubs carry the same node leaves the stub list (and the
graph) unchanged: the self-loop attempt is discarded without removing stubs. -/
theorem configALoop_selfLoop_discard (draws : Nat → Nat × Nat) (fuel t : Nat)
    (g : NXGraph) (stubs : List Nat) (hlong : ¬stubs.length ≤ 1)
    (heq : stubs.get ⟨(draws t).1 % stubs.length, Nat.mod_lt _ (by omega)⟩
        = stubs.get ⟨(draws t).2 % stubs.length, Nat.mod_lt _ (by omega)⟩) :
    configALoop draws (fuel + 1) t g stubs = configALoop draws fuel (t + 1) g stubs := by
  simp only [configALoop]
  rw [dif_neg hlong, if_neg (by simpa using heq)]

/-- On the stub list `[0, 0]` (degree sequence `[2]`) every possible draw is a
self-loop draw, so the loop state never changes. -/
theorem configALoop_twoZero_none (draws : Nat → Nat × Nat) :
    ∀ (fuel t : Nat) (g : NXGraph), configALoop draws fuel t g [0, 0] = none := by
  intro fuel
  induction fuel with
  | zero =>
    intro t g
    simp [configALoop]
  | succ f ih =>
    intro t g
    have hget : ∀ (i : Fin (([0, 0] : List Nat).length)), ([0, 0] : List Nat).get i = 0 := by
      intro i
      fin_cases i <;> rfl
    rw [configALoop_selfLoop_discard draws f t g [0, 0] (by simp) (by rw [hget, hget])]
    exact ih (t + 1) g

/-! ### Facts about the Erdős–Gallai test and the sampler loop -/

theorem egTest_even_sum (S : List Nat) (h : egTest S = true) : S.sum % 2 = 0 := by
  unfold egTest at h
  simp only [Bool.and_eq_true, decide_eq_true_eq] at h
  exact h.1

theorem samplerLoop_accepts (draws : Nat → List Nat) (fuel : Nat) :
    ∀ (t : Nat) (S accepted : List Nat),
      samplerLoop draws fuel t S = some accepted → egTest accepted = true := by
  induction fuel with
  | zero =>
    intro t S accepted heq
    simp only [samplerLoop] at heq
    split at heq
    · obtain rfl := by simpa using heq
      assumption
    · cases heq
  | succ f ih =>
    intro t S accepted heq
    simp only [samplerLoop] at heq
    split at heq
    · obtain rfl := by simpa using heq
      assumption
    · exact ih (t + 1) (draws t) accepted heq

/-! ### Pool membership characterisations -/

theorem mem_pool1 (G1 : NXGraph) (cl : List Nat) (v n : Nat) :
    n ∈ pool1 G1 cl v ↔ n ∈ G1.nodes ∧ n ∉ cl ∧ n ≠ v := by
  unfold pool1
  simp [List.mem_filter, mem_sortedList]

theorem mem_pool3 (G1 : NXGraph) (nl : List Nat) (v d n : Nat) :
    n ∈ pool3 G1 nl v d ↔ n ∈ nl ∧ degree G1 n = d ∧ n ≠ v := by
  unfold pool3
  simp [List.mem_filter]

theorem mem_selectedOf (npr : Nat) (ch : StepChoice) (pool : List Nat) (c : Nat)
    (hsel : ∀ l x, x ∈ ch.sampleSel l → x ∈ l)
    (hc : c ∈ selectedOf npr ch pool) : c ∈ pool := by
  unfold selectedOf at hc
  split at hc
  · exact hsel pool c hc
  · exact hc

/-- C4.  Model 3 candidate filter: in a step where node `v` drops the edge to
`w`, the captured degree is `degree G w` taken on the pre-removal graph `G`,
the pool is `pool3` over the post-removal graph, and every candidate the step
actually considers (every member of the sampled selection) has current degree
exactly equal to that captured degree and is distinct from `v`. -/
theorem c4_model3_filter (G : NXGraph) (v w : Nat) (nl : List Nat) (npr : Nat)
    (ch : StepChoice) (c : Nat)
    (hsel : ∀ l x, x ∈ ch.sampleSel l → x ∈ l)
    (hc : c ∈ selectedOf npr ch (pool3 (removeEdge G v w) nl v (degree G w))) :
    degree (removeEdge G v w) c = degree G w ∧ c ≠ v := by
  have hp := mem_selectedOf npr ch _ c hsel hc
  rw [mem_pool3] at hp
  exact ⟨hp.2.1, hp.2.2⟩

/-- Witness for C4 on the path `0 - 1 - 2`: node `1` drops the edge to `0`
(captured degree `1`), and the only candidate, node `2`, has post-removal
degree `1` and differs from `1`. -/
theorem c4_model3_filter_witness :
    degree (removeEdge ⟨{0, 1, 2}, {(0, 1), (1, 2)}⟩ 1 0) 2
        = degree (⟨{0, 1, 2}, {(0, 1), (1, 2)}⟩ : NXGraph) 0 ∧ (2 : Nat) ≠ 1 :=
  c4_model3_filter ⟨{0, 1, 2}, {(0, 1), (1, 2)}⟩ 1 0 [0, 1, 2] 5 ⟨0, fun l => l⟩ 2
    (fun _ _ h => h) (by decide)

/-- C2 (amended).  In Model 1 the exclusion set is the *pre-removal* neighbor
list `current_links` (captured before the edge removal) together with `v`
itself; consequently the endpoint of the just-removed edge, being a member of
`current_links`, is *not* in the candidate pool. -/
theorem c2_model1_exclusion (G : NXGraph) (v w n : Nat) (hw : w ∈ neighbors G v) :
    (n ∈ pool1 (removeEdge G v w) (sortedList (neighbors G v)) v ↔
      n ∈ G.nodes ∧ n ∉ neighbors G v ∧ n ≠ v) ∧
    w ∉ pool1 (removeEdge G v w) (sortedList (neighbors G v)) v := by
  constructor
  · rw [mem_pool1, nodes_removeEdge]
    constructor
    · rintro ⟨h1, h2, h3⟩
      exact ⟨h1, fun hmem => h2 ((mem_sortedList _ _).mpr hmem), h3⟩
    · rintro ⟨h1, h2, h3⟩
      exact ⟨h1, fun hmem => h2 ((mem_sortedList _ _).mp hmem), h3⟩
  · rw [mem_pool1]
    rintro ⟨_, h2, _⟩
    exact h2 ((mem_sortedList _ _).mpr hw)

/-- Witness for C2 on the path `0 - 1 - 2`, node `0`, removed edge `(0, 1)`:
pool membership is as characterised, and the removed endpoint `1` is excluded. -/
theorem c2_model1_exclusion_witness :
    (2 ∈ pool1 (removeEdge ⟨{0, 1, 2}, {(0, 1), (1, 2)}⟩ 0 1)
        (sortedList (neighbors ⟨{0, 1, 2}, {(0, 1), (1, 2)}⟩ 0)) 0 ↔
      2 ∈ (⟨{0, 1, 2}, {(0, 1), (1, 2)}⟩ : NXGraph).nodes ∧
        2 ∉ neighbors ⟨{0, 1, 2}, {(0, 1), (1, 2)}⟩ 0 ∧ (2 : Nat) ≠ 0) ∧
    1 ∉ pool1 (removeEdge ⟨{0, 1, 2}, {(0, 1), (1, 2)}⟩ 0 1)
        (sortedList (neighbors ⟨{0, 1, 2}, {(0, 1), (1, 2)}⟩ 0)) 0 :=
  ⟨(c2_model1_exclusion ⟨{0, 1, 2}, {(0, 1), (1, 2)}⟩ 0 1 2 (by decide)).1,
    (c2_model1_exclusion ⟨{0, 1, 2}, {(0, 1), (1, 2)}⟩ 0 1 1 (by decide)).2⟩

/-- Counterexample to C2 as stated.  On the path `0 - 1 - 2`, node `0` removes
its edge to `1`; after the removal `1` is not a neighbor of `0` and differs
from `0`, so the claim asserts `1` is in the candidate pool — but the pool
computed by the code excludes it (the exclusion list was captured before the
removal). -/
theorem c2_counterexample :
    1 ∉ neighbors (removeEdge ⟨{0, 1, 2}, {(0, 1), (1, 2)}⟩ 0 1) 0 ∧ (1 : Nat) ≠ 0 ∧
    1 ∈ (⟨{0, 1, 2}, {(0, 1), (1, 2)}⟩ : NXGraph).nodes ∧
    1 ∉ pool1 (removeEdge ⟨{0, 1, 2}, {(0, 1), (1, 2)}⟩ 0 1)
        (sortedList (neighbors ⟨{0, 1, 2}, {(0, 1), (1, 2)}⟩ 0)) 0 := by
  decide

/-! ### The add–evaluate–remove triple (C1) and the Model 2 pool bug (C3) -/

theorem foldl_union_subset (f : Nat → Finset Nat) :
    ∀ (l : List Nat) (s : Finset Nat), s ⊆ l.foldl (fun acc nb => acc ∪ f nb) s := by
  intro l
  induction l with
  | nil => intro s; exact le_refl s
  | cons a as ih =>
    intro s
    simp only [List.foldl_cons]
    exact subset_trans Finset.subset_union_left (ih (s ∪ f a))

theorem mem_pool2 (nl : List Nat) (ext : Finset Nat) (n : Nat) :
    n ∈ pool2 nl ext ↔ n ∈ nl ∧ n ∉ ext := by
  unfold pool2
  simp [List.mem_filter]

/-- C1 (amended).  The add–evaluate–remove triple restores the edge set
exactly for candidates not already adjacent to the node: (i) whenever the edge
`v - c` is absent, adding it, evaluating, and removing it leaves the edge set
unchanged; (ii) every Model 1 candidate is non-adjacent (the pool excludes the
pre-removal neighbor list, which contains every current neighbor); (iii) every
Model 2 candidate is non-adjacent provided `v` carries no self-loop.  In
Model 3 a candidate can already be adjacent to `v`, and the triple then
removes that pre-existing edge (see the counterexample). -/
theorem c1_pure_evaluation (G G1 : NXGraph) (cl nl : List Nat) (v c : Nat) :
    (hasEdge G v c = false → (evalOne G v c).2.edges = G.edges) ∧
    ((∀ x ∈ neighbors G1 v, x ∈ cl) → c ∈ pool1 G1 cl v → hasEdge G1 v c = false) ∧
    (hasEdge G1 v v = false → (∀ x ∈ nl, x ∈ G1.nodes) →
      (∀ x ∈ neighbors G1 v, x ∈ cl) → c ∈ pool2 nl (extendedNbrs G1 cl v) →
      hasEdge G1 v c = false) := by
  refine ⟨fun h => addRemove_restores G v c h, ?_, ?_⟩
  · intro hcl hc
    rw [mem_pool1] at hc
    cases h : hasEdge G1 v c
    · rfl
    · exact absurd (hcl c ((mem_neighbors G1 v c).mpr ⟨hc.1, h⟩)) hc.2.1
  · intro hself hnl hcl hc
    rw [mem_pool2] at hc
    cases h : hasEdge G1 v c
    · rfl
    · exfalso
      rcases em (c = v) with rfl | hcv
      · rw [hself] at h; cases h
      · apply hc.2
        unfold extendedNbrs
        refine Finset.mem_erase.mpr ⟨hcv, ?_⟩
        exact foldl_union_subset (neighbors G1) cl cl.toFinset
          (List.mem_toFinset.mpr (hcl c ((mem_neighbors G1 v c).mpr ⟨hnl c hc.1, h⟩)))

/-- Witness for C1 on the edgeless graph `{0, 1}`: the candidate `1` is fresh,
the triple restores the (empty) edge set, and the candidate drawn from either
pool is indeed non-adjacent. -/
theorem c1_pure_evaluation_witness :
    (evalOne ⟨{0, 1}, ∅⟩ 0 1).2.edges = (⟨{0, 1}, ∅⟩ : NXGraph).edges ∧
    hasEdge (⟨{0, 1}, ∅⟩ : NXGraph) 0 1 = false ∧
    hasEdge (⟨{0, 1}, ∅⟩ : NXGraph) 0 1 = false :=
  ⟨(c1_pure_evaluation ⟨{0, 1}, ∅⟩ ⟨{0, 1}, ∅⟩ [] [0, 1] 0 1).1 (by decide),
    (c1_pure_evaluation ⟨{0, 1}, ∅⟩ ⟨{0, 1}, ∅⟩ [] [0, 1] 0 1).2.1 (by decide) (by decide),
    (c1_pure_evaluation ⟨{0, 1}, ∅⟩ ⟨{0, 1}, ∅⟩ [] [0, 1] 0 1).2.2 (by decide) (by decide)
      (by decide) (by decide)⟩

/-- Counterexample to C1 as stated.  In Model 3, on the graph with edges
`(0,1), (0,4), (1,2), (2,3)`, node `1` drops the edge to `0` (captured degree
`2`); node `2` — a *current neighbor* of `1` — has post-removal degree `2`, so
it enters the Model 3 pool, and the add–evaluate–remove triple for it deletes
the pre-existing edge `(1,2)`: the edge set after the triple differs from the
edge set before it. -/
theorem c1_counterexample :
    0 ∈ neighbors ⟨{0, 1, 2, 3, 4}, {(0, 1), (0, 4), (1, 2), (2, 3)}⟩ 1 ∧
    degree (⟨{0, 1, 2, 3, 4}, {(0, 1), (0, 4), (1, 2), (2, 3)}⟩ : NXGraph) 0 = 2 ∧
    2 ∈ pool3 (removeEdge ⟨{0, 1, 2, 3, 4}, {(0, 1), (0, 4), (1, 2), (2, 3)}⟩ 1 0)
        [0, 1, 2, 3, 4] 1
        (degree (⟨{0, 1, 2, 3, 4}, {(0, 1), (0, 4), (1, 2), (2, 3)}⟩ : NXGraph) 0) ∧
    hasEdge (removeEdge ⟨{0, 1, 2, 3, 4}, {(0, 1), (0, 4), (1, 2), (2, 3)}⟩ 1 0) 1 2
      = true ∧
    (evalOne (removeEdge ⟨{0, 1, 2, 3, 4}, {(0, 1), (0, 4), (1, 2), (2, 3)}⟩ 1 0) 1 2).2.edges
      ≠ (removeEdge ⟨{0, 1, 2, 3, 4}, {(0, 1), (0, 4), (1, 2), (2, 3)}⟩ 1 0).edges := by
  decide

theorem idxOfMax_singleton (x : ℚ) : idxOfMax [x] = 0 := by
  unfold idxOfMax
  rw [List.length_singleton, (by decide : List.range 1 = [0]), List.foldl_cons,
    List.foldl_nil, ite_self]

theorem rewireStep_singleton (npr : Nat) (ch : StepChoice) (G1 : NXGraph) (v c : Nat)
    (hnpr : ¬npr < 1) :
    rewireStep npr ch G1 v [c] = addEdge (removeEdge (addEdge G1 v c) v c) v c := by
  have hsel : selectedOf npr ch [c] = [c] := by
    unfold selectedOf
    rw [if_neg (by simpa using hnpr)]
  have hev : evalCandidates G1 v [c] = ([(evalOne G1 v c).1], (evalOne G1 v c).2) := by
    simp [evalCandidates]
  simp only [rewireStep, hsel, hev]
  rw [if_neg (by simp : ¬([(evalOne G1 v c).1] = ([] : List ℚ)))]
  rw [idxOfMax_singleton]
  rfl

/-- C3, code bug (`models.py` line 138).  `extended_neighbors.discard(node)`
removes `node` from the *exclusion* set, so — contrary to the comment
"Exclude current links and the node itself from potential new links" — the
node itself enters its own candidate pool.  On the triangle `K3`, processing
node `0` after removing the edge `(0, 1)` yields the pool `[0]`, and the
accept step then adds the self-loop `(0, 0)`, violating the simple-graph
invariant (the input graph had no self-loops). -/
theorem c3_model2_selfLoop_bug :
    0 ∈ pool2 [0, 1, 2]
        (extendedNbrs (removeEdge ⟨{0, 1, 2}, {(0, 1), (0, 2), (1, 2)}⟩ 0 1)
          (sortedList (neighbors ⟨{0, 1, 2}, {(0, 1), (0, 2), (1, 2)}⟩ 0)) 0) ∧
    (∀ e ∈ (⟨{0, 1, 2}, {(0, 1), (0, 2), (1, 2)}⟩ : NXGraph).edges, e.1 ≠ e.2) ∧
    (0, 0) ∈ (model2NodeStep 2 ⟨0, fun l => l⟩ [0, 1, 2]
        ⟨{0, 1, 2}, {(0, 1), (0, 2), (1, 2)}⟩ 0).edges := by
  refine ⟨by decide, by decide, ?_⟩
  have hstep : model2NodeStep 2 ⟨0, fun l => l⟩ [0, 1, 2]
      ⟨{0, 1, 2}, {(0, 1), (0, 2), (1, 2)}⟩ 0
      = rewireStep 2 ⟨0, fun l => l⟩
          (removeEdge ⟨{0, 1, 2}, {(0, 1), (0, 2), (1, 2)}⟩ 0 1) 0 [0] := by
    have hcl : sortedList (neighbors ⟨{0, 1, 2}, {(0, 1), (0, 2), (1, 2)}⟩ 0) = [1, 2] := by
      decide
    have hpool : pool2 [0, 1, 2]
        (extendedNbrs (removeEdge ⟨{0, 1, 2}, {(0, 1), (0, 2), (1, 2)}⟩ 0 1) [1, 2] 0)
        = [0] := by decide
    simp only [model2NodeStep, hcl]
    rw [if_neg (by decide)]
    rw [if_pos (by decide : ([1, 2] : List Nat).length ≠ 0)]
    simp only [show ([1, 2] : List Nat).getD (0 % [1, 2].length) 0 = 1 by decide, hpool]
  rw [hstep, rewireStep_singleton 2 ⟨0, fun l => l⟩ _ 0 0 (by omega)]
  exact Finset.mem_insert_self _ _

/-- C6.  Connectivity repair of Models 2 and 3: whenever the per-node repair
choices land in the largest connected component (as `random.choice(list(
largest_cc))` guarantees), the repaired graph is connected; and when the round
runs the repair branch (`connectedB G = false`), the Model 2 round proceeds to
per-node rewiring exactly from the repaired graph `repairConnect G f`. -/
theorem c6_repair_connectivity (G : NXGraph) (f : Nat → Nat) (npr : Nat)
    (ch : Nat → StepChoice)
    (hf : ∀ x ∈ G.nodes, x ∉ largestCC G → f x ∈ largestCC G) :
    ConnectedG (repairConnect G f) ∧
    (connectedB G = false →
      model2Round npr ch f G =
        ((sortedList G.nodes).enum).foldl
          (fun H p => model2NodeStep npr (ch p.1) (sortedList G.nodes) H p.2)
          (repairConnect G f)) := by
  refine ⟨repairConnect_connected G f hf, ?_⟩
  intro hdis
  unfold model2Round
  rw [hdis]
  simp

/-- Witness for C6: the two-component graph `{0 - 1, 2}` is connected after
repair wires node `2` to node `0`. -/
theorem c6_repair_connectivity_witness :
    ConnectedG (repairConnect ⟨{0, 1, 2}, {(0, 1)}⟩ (fun _ => 0)) :=
  (c6_repair_connectivity ⟨{0, 1, 2}, {(0, 1)}⟩ (fun _ => 0) 1 (fun _ => ⟨0, fun l => l⟩)
    (by decide)).1

/-- C7.  Whenever `configuration_A` terminates, the resulting graph has node
set exactly `range (len S)` (isolated nodes included), no self-loops, each
undirected edge stored exactly once in normalised orientation (no
multi-edges), and every realised degree bounded by the requested degree. -/
theorem c7_configuration_A_sound (S : List Nat) (draws : Nat → Nat × Nat) (fuel : Nat)
    (g : NXGraph) (h : configuration_A S draws fuel = some g) :
    g.nodes = Finset.range S.length ∧
    (∀ e ∈ g.edges, e.1 ≠ e.2) ∧
    (∀ e ∈ g.edges, e.1 < e.2) ∧
    (∀ i : Nat, degree g i ≤ S.getD i 0) := by
  unfold configuration_A at h
  rcases hx : configALoop draws fuel 0 ⟨Finset.range S.length, ∅⟩ (initStubs S)
    with _ | ⟨ga, stubs'⟩
  · rw [hx] at h; cases h
  · rw [hx] at h
    simp only [Option.map_some'] at h
    obtain rfl : ga = g := by injection h
    obtain ⟨⟨hn, he, _, hc⟩, _⟩ :=
      configALoop_inv S.length S draws fuel 0 _ _ (cfgInv_init S) ga stubs' (by rw [hx])
    exact ⟨hn, fun e he2 => Nat.ne_of_lt (he e he2), he,
      fun i => le_trans (Nat.le_add_right _ _) (hc i)⟩

/-- Witness for C7: the degree sequence `[1, 1]` with the draw `(0, 1)` builds
the single-edge graph on two nodes. -/
theorem c7_configuration_A_sound_witness :
    configuration_A [1, 1] (fun _ => (0, 1)) 2 = some ⟨{0, 1}, {(0, 1)}⟩ ∧
    ((⟨{0, 1}, {(0, 1)}⟩ : NXGraph).nodes = Finset.range 2 ∧
      (∀ e ∈ (⟨{0, 1}, {(0, 1)}⟩ : NXGraph).edges, e.1 ≠ e.2) ∧
      (∀ e ∈ (⟨{0, 1}, {(0, 1)}⟩ : NXGraph).edges, e.1 < e.2) ∧
      (∀ i : Nat, degree (⟨{0, 1}, {(0, 1)}⟩ : NXGraph) i ≤ [1, 1].getD i 0)) :=
  ⟨by decide, c7_configuration_A_sound [1, 1] (fun _ => (0, 1)) 2 ⟨{0, 1}, {(0, 1)}⟩
    (by decide)⟩

/-- C8 (amended).  The stub-matching loop ends exactly when fewer than two
stubs remain: every normal return leaves at most one stub, and with at most
one stub the loop returns at once without touching the graph.  Self-loop
draws are discarded without removing stubs, and on the stub state `[0, 0]`
(degree sequence `[2]`) every draw is a self-loop draw, so the loop never
terminates — termination does *not* hold for every degree sequence. -/
theorem c8_stub_loop_exit (draws : Nat → Nat × Nat) (fuel t : Nat) (g g' : NXGraph)
    (stubs stubs' : List Nat) :
    (configALoop draws fuel t g stubs = some (g', stubs') → stubs'.length ≤ 1) ∧
    (stubs.length ≤ 1 → configALoop draws fuel t g stubs = some (g, stubs)) ∧
    configALoop draws fuel t g [0, 0] = none :=
  ⟨fun h => configALoop_halts_le_one draws fuel t g stubs g' stubs' h,
    fun h => configALoop_exits draws fuel t g stubs h,
    configALoop_twoZero_none draws fuel t g⟩

/-- Witness for C8. -/
theorem c8_stub_loop_exit_witness :
    (([] : List Nat).length ≤ 1) ∧
    configALoop (fun _ => (0, 1)) 1 0 ⟨{0}, ∅⟩ [] = some (⟨{0}, ∅⟩, []) :=
  ⟨(c8_stub_loop_exit (fun _ => (0, 1)) 2 0 ⟨Finset.range 2, ∅⟩ ⟨{0, 1}, {(0, 1)}⟩
      [0, 1] []).1 (by decide),
    (c8_stub_loop_exit (fun _ => (0, 1)) 1 0 ⟨{0}, ∅⟩ ⟨{0}, ∅⟩ [] []).2.1 (by decide)⟩

/-- Counterexample to C8 as stated: for the degree sequence `[2]` the
stub-matching loop never terminates — its stub list `[0, 0]` only ever offers
the same two stubs of node `0`, every draw is discarded, and no fuel bound
(under any draw sequence) reaches the exit condition. -/
theorem c8_counterexample :
    ¬∃ (draws : Nat → Nat × Nat) (fuel : Nat) (g : NXGraph),
      configuration_A [2] draws fuel = some g := by
  rintro ⟨draws, fuel, g, h⟩
  unfold configuration_A at h
  rw [show initStubs [2] = [0, 0] by decide] at h
  rw [configALoop_twoZero_none draws fuel 0 _] at h
  simp at h

/-- C9 (amended).  Every degree sequence accepted by the rejection loop of
`configuration_B` passes the Erdős–Gallai graphicality test and has an even
degree sum; the accepted sequence itself, however, need not be sorted (the
library test sorts a copy internally — see the counterexample). -/
theorem c9_sampler_accepts (draws : Nat → List Nat) (fuel : Nat) (accepted : List Nat)
    (h : configurationBAccepted draws fuel = some accepted) :
    egTest accepted = true ∧ accepted.sum % 2 = 0 := by
  unfold configurationBAccepted at h
  have ht := samplerLoop_accepts draws fuel 0 [1] accepted h
  exact ⟨ht, egTest_even_sum accepted ht⟩

/-- Witness for C9: drawing `[1, 1]` exits the rejection loop at once. -/
theorem c9_sampler_accepts_witness :
    egTest [1, 1] = true ∧ ([1, 1] : List Nat).sum % 2 = 0 :=
  c9_sampler_accepts (fun _ => [1, 1]) 1 [1, 1] (by decide)

/-- Counterexample to C9 as stated: the unsorted graphical sequence
`[1, 2, 1]` is accepted by the rejection loop, yet it is not sorted in
descending order. -/
theorem c9_counterexample :
    configurationBAccepted (fun _ => [1, 2, 1]) 1 = some [1, 2, 1] ∧
    ¬List.Sorted (· ≥ ·) [1, 2, 1] :=
  ⟨by decide, by decide⟩

/-- C5 (amended).  For every run of the three models: a run returning from
the normal exit (`done`) has trajectory length equal to the round count plus
one with the initial coefficient as element zero; if the initial coefficient
already lies inside `[cluster - err, cluster + err]`, the loop performs zero
rounds and returns the trajectory `[c0]` unchanged; but a timed-out run may
return a trajectory of length equal to the round count (the alarm fired after
the counter increment and before the round's append), so length = count + 1
does not hold for every run. -/
theorem c5_trajectory_shape (G : NXGraph) (c0 cluster err : ℚ) (npr : Nat)
    (chs : Nat → Nat → StepChoice) (rf : Nat → Nat → Nat)
    (intr : Nat → Option IPoint) (fuel : Nat) :
    (∀ g n st, model1 G c0 cluster err npr chs intr fuel = some (.done g n st) →
      st.length = n + 1 ∧ st.head? = some c0) ∧
    (∀ g n st, model2 G c0 cluster err npr chs rf intr fuel = some (.done g n st) →
      st.length = n + 1 ∧ st.head? = some c0) ∧
    (∀ g n st, model3 G c0 cluster err npr chs rf intr fuel = some (.done g n st) →
      st.length = n + 1 ∧ st.head? = some c0) ∧
    (∀ g n st, model1 G c0 cluster err npr chs intr fuel = some (.timedOut g n st) →
      (st.length = n ∨ st.length = n + 1) ∧ st.head? = some c0) ∧
    (¬(c0 < cluster - err ∨ cluster + err < c0) →
      model1 G c0 cluster err npr chs intr (fuel + 1) = some (.done G 0 [c0]) ∧
      model2 G c0 cluster err npr chs rf intr (fuel + 1) = some (.done G 0 [c0]) ∧
      model3 G c0 cluster err npr chs rf intr (fuel + 1) = some (.done (G, none) 0 [c0])) := by
  have h1 := modelLoop_shape (fun i H => .ok (model1Round npr (chs i) H)) avgClustering
    intr (cluster - err) (cluster + err) c0 fuel 0 G c0 [c0] rfl rfl
  have h2 := modelLoop_shape (fun i H => .ok (model2Round npr (chs i) (rf i) H))
    avgClustering intr (cluster - err) (cluster + err) c0 fuel 0 G c0 [c0] rfl rfl
  have h3 := modelLoop_shape (fun i st => model3Round npr (chs i) (rf i) st)
    (fun st => avgClustering st.1) intr (cluster - err) (cluster + err) c0 fuel 0
    (G, none) c0 [c0] rfl rfl
  refine ⟨fun g n st h => h1.1 g n st h, fun g n st h => h2.1 g n st h,
    fun g n st h => h3.1 g n st h, fun g n st h => h1.2 g n st h, fun hin => ?_⟩
  exact ⟨modelLoop_inBounds _ _ _ _ _ fuel 0 G c0 [c0] hin,
    modelLoop_inBounds _ _ _ _ _ fuel 0 G c0 [c0] hin,
    modelLoop_inBounds _ _ _ _ _ fuel 0 (G, none) c0 [c0] hin⟩

/-- Witness for C5: with the initial coefficient already inside the band,
every model returns zero rounds and the one-element trajectory. -/
theorem c5_trajectory_shape_witness :
    (([(0 : ℚ)] : List ℚ).length = 0 + 1 ∧ ([(0 : ℚ)] : List ℚ).head? = some (0 : ℚ)) ∧
    model1 ⟨{0}, ∅⟩ 0 0 0 1 (fun _ _ => ⟨0, fun l => l⟩) (fun _ => none) 1
      = some (.done ⟨{0}, ∅⟩ 0 [0]) ∧
    model3 ⟨{0}, ∅⟩ 0 0 0 1 (fun _ _ => ⟨0, fun l => l⟩) (fun _ _ => 0) (fun _ => none) 1
      = some (.done (⟨{0}, ∅⟩, none) 0 [0]) :=
  ⟨(c5_trajectory_shape ⟨{0}, ∅⟩ 0 0 0 1 (fun _ _ => ⟨0, fun l => l⟩) (fun _ _ => 0)
      (fun _ => none) 1).1 ⟨{0}, ∅⟩ 0 [0]
      (((c5_trajectory_shape ⟨{0}, ∅⟩ 0 0 0 1 (fun _ _ => ⟨0, fun l => l⟩) (fun _ _ => 0)
        (fun _ => none) 0).2.2.2.2 (by simp)).1),
    ((c5_trajectory_shape ⟨{0}, ∅⟩ 0 0 0 1 (fun _ _ => ⟨0, fun l => l⟩) (fun _ _ => 0)
      (fun _ => none) 0).2.2.2.2 (by simp)).1,
    ((c5_trajectory_shape ⟨{0}, ∅⟩ 0 0 0 1 (fun _ _ => ⟨0, fun l => l⟩) (fun _ _ => 0)
      (fun _ => none) 0).2.2.2.2 (by simp)).2.2⟩

/-- Counterexample to C5 as stated: a run of Model 1 interrupted by the alarm
during the body of round 1 returns round count `1` with the one-element
trajectory `[c0]` — trajectory length equals the round count, not the round
count plus one. -/
theorem c5_counterexample :
    model1 ⟨{0, 1}, {(0, 1)}⟩ 1 0 0 1 (fun _ _ => ⟨0, fun l => l⟩)
        (fun _ => some .duringBody) 3
      = some (.timedOut ⟨{0, 1}, {(0, 1)}⟩ 1 [1]) ∧
    ([(1 : ℚ)] : List ℚ).length ≠ 1 + 1 := by
  constructor
  · have key : ∀ body : Nat → NXGraph → Except Unit NXGraph,
        modelLoop body avgClustering (fun _ => some .duringBody)
          ((0 : ℚ) - 0) ((0 : ℚ) + 0) 3 0 ⟨{0, 1}, {(0, 1)}⟩ 1 [1]
          = some (.timedOut ⟨{0, 1}, {(0, 1)}⟩ 1 [1]) := by
      intro body
      show modelLoop body avgClustering _ _ _ (2 + 1) 0 _ 1 [1] = _
      simp only [modelLoop]
      rw [if_pos (by simp : (1 : ℚ) < 0 - 0 ∨ (0 : ℚ) + 0 < 1)]
    exact key _
  · simp

theorem sortedList_empty : sortedList (∅ : Finset Nat) = [] := by decide

/-- C10.  In Model 3, a node `v` with no neighbors removes no edge and
captures no degree, yet the candidate filter still runs: with a degree
captured for an earlier node (`some d`) the step succeeds and filters by that
stale value, while with the variable still unbound (`none` — `v` is the first
node processed and isolated, as on a one-node graph) the read raises
`UnboundLocalError`: the whole run crashes instead of returning a
(graph, rounds, trajectory) triple. -/
theorem c10_model3_unbound (npr : Nat) (ch : StepChoice) (nl : List Nat) (G : NXGraph)
    (v d : Nat) (hin : v ∈ G.nodes) (hiso : neighbors G v = ∅) :
    model3NodeStep npr ch nl (G, some d) v
      = .ok (model3Select npr ch nl G v d, some d) ∧
    model3NodeStep npr ch nl (G, none) v = .error () ∧
    model3 ⟨{0}, ∅⟩ 1 0 0 npr (fun _ _ => ch) (fun _ _ => 0) (fun _ => none) 1
      = some .crashed := by
  refine ⟨?_, ?_, ?_⟩
  · simp [model3NodeStep, hin, hiso, sortedList_empty]
  · simp [model3NodeStep, hin, hiso, sortedList_empty]
  · show modelLoop _ _ _ _ _ (0 + 1) 0 ((⟨{0}, ∅⟩ : NXGraph), none) 1 [1] = some .crashed
    simp only [modelLoop]
    rw [if_pos (by simp : (1 : ℚ) < 0 - 0 ∨ (0 : ℚ) + 0 < 1)]
    rfl

/-- Witness for C10 on the edgeless two-node graph: node `0` is isolated; with
a stale captured degree the step succeeds, with none it errors. -/
theorem c10_model3_unbound_witness :
    model3NodeStep 1 ⟨0, fun l => l⟩ [0, 1] (⟨{0, 1}, ∅⟩, some 5) 0
      = .ok (model3Select 1 ⟨0, fun l => l⟩ [0, 1] ⟨{0, 1}, ∅⟩ 0 5, some 5) ∧
    model3NodeStep 1 ⟨0, fun l => l⟩ [0, 1] (⟨{0, 1}, ∅⟩, none) 0 = .error () :=
  ⟨(c10_model3_unbound 1 ⟨0, fun l => l⟩ [0, 1] ⟨{0, 1}, ∅⟩ 0 5 (by decide) (by decide)).1,
    (c10_model3_unbound 1 ⟨0, fun l => l⟩ [0, 1] ⟨{0, 1}, ∅⟩ 0 5 (by decide) (by decide)).2.1⟩
